import Mathlib

/-!
Verification of the rdktools ECFP reasoning-trace engine.

This file gives a shallow embedding of the C++ sources under `src/cpp/`
(`ecfp_trace.cpp`, `tf_string_op.cpp`, `molecular_ops.cpp`) and proves the
specification claims about them.

Modelling conventions:
* The RDKit chemistry toolkit is an abstract dependency (spec section 4.1); its
  capabilities are a record of functions (`Adapter`) over which the embedded
  code is parameterised.  Fallible toolkit calls are modelled with
  `Except`/`Option`.
* C++ `std::string` is modelled by Lean `String`; byte positions coincide with
  character positions on the ASCII token alphabet used here, and the
  `std::string` ordering coincides with the lexicographic ordering of the
  character list (UTF-8 byte order is monotone in code points).
* `std::map` is modelled by association lists sorted by key, `std::set` by
  sorted duplicate-free lists; in-place mutation of the working molecule is
  modelled by explicit state passing.
* Machine integers are modelled by `Nat` with explicit reduction `% 2 ^ 32`
  (`unsigned int`) and bound `2 ^ 64 - 1` (`unsigned long`, LP64) where
  overflow matters.
-/

/-- Bond orders distinguished by the code (`RDKit::Bond::DOUBLE` etc.). -/
inductive BondType
  | single
  | double
  | triple
  | aromatic
  | other
deriving DecidableEq

/-- An atom of the molecular graph: atomic number, element symbol, and the
mutable atom-map number used to mark environment centers. -/
structure Atom where
  atomicNum : Nat
  symbol : String
  mapNum : Int
deriving DecidableEq

/-- A bond of the molecular graph. -/
structure Bond where
  beginAtomIdx : Nat
  endAtomIdx : Nat
  btype : BondType
deriving DecidableEq

/-- A molecule: atoms, bonds, and the ring count produced by the toolkit's
ring perception (`getRingInfo()->numRings()`). -/
structure Mol where
  atoms : List Atom
  bonds : List Bond
  numRings : Nat
deriving DecidableEq

/-- Position of the first `':'` in a character list (`std::string::find`). -/
def findColon : List Char → Option Nat
  | [] => none
  | c :: cs => if c = ':' then some 0 else (findColon cs).map (fun n => n + 1)

/-- The C `isspace` predicate in the default locale, as used by `strtoul`. -/
def isSpaceC (c : Char) : Bool :=
  c = ' ' ∨ c = '\t' ∨ c = '\n' ∨ c = '\x0b' ∨ c = '\x0c' ∨ c = '\r'

/-- Value of a run of decimal digits. -/
def digitsVal (ds : List Char) : Nat :=
  ds.foldl (fun a c => a * 10 + (c.toNat - 48)) 0

/-- Model of `std::stoul(s, nullptr, 10)` on 64-bit `unsigned long`:
skip leading whitespace, consume one optional sign, then a non-empty run of
decimal digits (further characters are ignored).  `none` models the two
exceptions `std::invalid_argument` (no digits) and `std::out_of_range`
(magnitude above `2 ^ 64 - 1`); a `'-'` sign negates modulo `2 ^ 64`. -/
def stoulModel (cs : List Char) : Option Nat :=
  let cs1 := cs.dropWhile isSpaceC
  let neg : Bool := cs1.head? = some '-'
  let cs2 := if cs1.head? = some '+' ∨ cs1.head? = some '-' then cs1.tail else cs1
  let ds := cs2.takeWhile Char.isDigit
  if ds.isEmpty then none
  else if 2 ^ 64 - 1 < digitsVal ds then none
  else if neg then some ((2 ^ 64 - digitsVal ds % 2 ^ 64) % 2 ^ 64)
  else some (digitsVal ds)

/-- Function `token_radius` from `ecfp_trace.cpp`: the layer encoded in a token of the
form `r{layer}:{smarts}`, with every failure mapped to `0`, and the
`static_cast<unsigned int>` truncation of the `std::stoul` result. -/
def token_radius (token : String) : Nat :=
  let cs := token.data
  if cs.length < 3 then 0
  else if cs.head? ≠ some 'r' then 0
  else
    match findColon cs with
    | none => 0
    | some pos =>
      if pos ≤ 1 then 0
      else
        match stoulModel ((cs.drop 1).take (pos - 1)) with
        | none => 0
        | some n => n % 2 ^ 32

/-- Function `token_smarts` from `ecfp_trace.cpp`: everything after the first `':'`,
or the whole token when there is no colon. -/
def token_smarts (token : String) : String :=
  match findColon token.data with
  | none => token
  | some pos => String.mk (token.data.drop (pos + 1))

/-- The structural statistics of a token (`struct TokenMetrics`). -/
structure TokenMetrics where
  radius : Nat
  numAtoms : Nat
  numBonds : Nat
  hasRing : Nat
  numHetero : Nat
  hasUnsat : Nat
  token : String
deriving DecidableEq

/-- Function `compute_metrics` from `ecfp_trace.cpp`, parameterised by the toolkit's
SMARTS parser `M` (`RDKit::SmartsToMol`); a parse failure leaves the
structural fields zero.  The `fastFindRings` call is reflected in
`Mol.numRings`. -/
def compute_metrics (M : String → Option Mol) (token : String) : TokenMetrics :=
  let radius := token_radius token
  match M (token_smarts token) with
  | none =>
    { radius := radius, numAtoms := 0, numBonds := 0, hasRing := 0,
      numHetero := 0, hasUnsat := 0, token := token }
  | some query =>
    { radius := radius
      numAtoms := query.atoms.length
      numBonds := query.bonds.length
      hasRing := if 0 < query.numRings then 1 else 0
      numHetero :=
        (query.atoms.filter (fun a => a.atomicNum ≠ 6 ∧ a.atomicNum ≠ 1)).length
      hasUnsat :=
        if query.bonds.any (fun b =>
            b.btype = BondType.double ∨ b.btype = BondType.triple ∨
              b.btype = BondType.aromatic) then 1 else 0
      token := token }

/-- Function `token_metrics` from `ecfp_trace.cpp`.  The mutex-guarded memoisation
cache stores the pure value of `compute_metrics`, so the observable result is
`compute_metrics` itself. -/
def token_metrics (M : String → Option Mol) (token : String) : TokenMetrics :=
  compute_metrics M token

/-- The codomain of the complexity key: the lexicographic product mirroring
the `std::tuple` ordering, with the token string compared as its character
list. -/
abbrev CKey :=
  Lex (Nat × Lex (Nat × Lex (Nat × Lex (Nat × Lex (Nat × Lex (Nat × List Char))))))

/-- Function `complexity_key` from `ecfp_trace.cpp`:
`(radius, num_atoms, num_bonds, has_ring, num_hetero, has_unsat, token)`. -/
def complexity_key (M : String → Option Mol) (token : String) : CKey :=
  let m := token_metrics M token
  toLex (m.radius, toLex (m.numAtoms, toLex (m.numBonds, toLex (m.hasRing,
    toLex (m.numHetero, toLex (m.hasUnsat, m.token.data))))))

/-- Insertion step of the sort of `(token, count)` pairs by strict
`complexity_key` comparison (the comparator of the `std::sort` call in the
facade). -/
def insertByKey (M : String → Option Mol) (x : String × Nat) :
    List (String × Nat) → List (String × Nat)
  | [] => [x]
  | y :: ys =>
    if complexity_key M y.1 < complexity_key M x.1 then y :: insertByKey M x ys
    else x :: y :: ys

/-- The sort of `(token, count)` pairs used for each per-radius line. -/
def sortTokens (M : String → Option Mol) (l : List (String × Nat)) :
    List (String × Nat) :=
  l.foldr (insertByKey M) []

/-- Set the atom-map number of the atom at a given index
(`getAtomWithIdx(idx)->setAtomMapNum(v)`); out-of-range indices leave the
list unchanged. -/
def setAtomMap : List Atom → Nat → Int → List Atom
  | [], _, _ => []
  | a :: as, 0, v => { a with mapNum := v } :: as
  | a :: as, n + 1, v => a :: setAtomMap as n v

/-- The loop `for idx in [0, n): setAtomMapNum(idx, vals idx)`. -/
def setMapsAll (atoms : List Atom) (vals : Nat → Int) (n : Nat) : List Atom :=
  (List.range n).foldl (fun acc i => setAtomMap acc i (vals i)) atoms

/-- The atom-map-number vector of a molecule (the snapshot taken at
`originalMapNums`). -/
def getMapNums (m : Mol) : List Int :=
  m.atoms.map Atom.mapNum

/-- The `mark_root` block before serialisation: zero the map number of every
index below the snapshot length, then set the center's map number to `1`. -/
def markRoot (m : Mol) (snapLen : Nat) (center : Nat) : Mol :=
  { m with atoms := setAtomMap (setMapsAll m.atoms (fun _ => 0) snapLen) center 1 }

/-- The restoration loop after serialisation: write back every snapshotted
map number. -/
def restoreAtomMaps (m : Mol) (orig : List Int) : Mol :=
  { m with atoms := setMapsAll m.atoms (fun i => orig.getD i 0) orig.length }

/-- The abstract chemistry-toolkit dependency (spec section 4.1).  Each field
is one capability the core uses; `Except`/`Option` model the toolkit's
exceptions and null returns. -/
structure Adapter where
  smilesToMol : String → Option Mol
  kekulizeMol : Mol → Option Mol
  morganBitInfo : Mol → Nat → Bool → List (Nat × List (Nat × Nat))
  envBondIndices : Mol → Nat → Nat → List Nat
  fragmentToSmarts : Mol → List Nat → Option (List Nat) → Bool → Except String String
  smartsToMol : String → Option Mol
  fingerprintAsBitVect : Mol → Nat → Nat → Bool → Except String (Option (List Bool))

/-- Function `collect_morgan_bitinfo` from `ecfp_trace.cpp`: run the Morgan generator
with the given chirality flag and keep only the bit-info map. -/
def collect_morgan_bitinfo (A : Adapter) (mol : Mol) (radius : Nat)
    (includeChirality : Bool) : List (Nat × List (Nat × Nat)) :=
  A.morganBitInfo mol radius includeChirality

/-- Insertion into the sorted duplicate-free list modelling
`std::set<CenterRadiusPair>` (lexicographic pair order). -/
def insertPair (p : Nat × Nat) : List (Nat × Nat) → List (Nat × Nat)
  | [] => [p]
  | q :: qs =>
    if p.1 < q.1 ∨ (p.1 = q.1 ∧ p.2 < q.2) then p :: q :: qs
    else if p = q then q :: qs
    else q :: insertPair p qs

/-- The pair-collection loop of `ecfp_env_tokens_by_center`: every occurrence
`(center, layer)` of the bit-info map with `layer <= radius` goes into the
set of unique pairs. -/
def collectPairs (bitInfo : List (Nat × List (Nat × Nat))) (radius : Nat) :
    List (Nat × Nat) :=
  bitInfo.foldl
    (fun acc entry =>
      entry.2.foldl
        (fun acc2 occurrence =>
          if occurrence.2 ≤ radius then insertPair (occurrence.1, occurrence.2) acc2
          else acc2)
        acc)
    []

/-- Insertion into the sorted duplicate-free list modelling `std::set<int>`. -/
def insertSortedNat (x : Nat) : List Nat → List Nat
  | [] => [x]
  | y :: ys =>
    if x < y then x :: y :: ys
    else if x = y then y :: ys
    else y :: insertSortedNat x ys

/-- Fallback bond for the total modelling of `getBondWithIdx`; the toolkit
contract guarantees the indices it returns are in range. -/
def defaultBond : Bond :=
  { beginAtomIdx := 0, endAtomIdx := 0, btype := BondType.single }

/-- The atom set of one environment: the center plus both endpoints of every
enumerated bond, as an ascending list (the `std::set` is already sorted, so
the subsequent `std::sort` is the identity). -/
def envAtomList (mol : Mol) (center : Nat) (bondIndices : List Nat) : List Nat :=
  bondIndices.foldl
    (fun acc bidx =>
      let b := mol.bonds.getD bidx defaultBond
      insertSortedNat b.endAtomIdx (insertSortedNat b.beginAtomIdx acc))
    (insertSortedNat center [])

/-- Token construction: `r{layer}:{smarts}` when the radius tag is requested,
else the bare SMARTS. -/
def mkToken (includeRadiusTag : Bool) (layer : Nat) (smarts : String) : String :=
  if includeRadiusTag then ("r") ++ toString layer ++ (":") ++ smarts else smarts

/-- One iteration of the per-pair loop of `ecfp_env_tokens_by_center`
(lines 241-288 of `ecfp_trace.cpp`): enumerate the environment's bonds and
atoms, mark the root, serialise to SMARTS, and restore the snapshotted map
numbers.  The returned molecule is the state of the working molecule when the
iteration exits; on a serialisation exception the restoration statement is
never reached, exactly as in the source, so the marked state is returned with
the error. -/
def serializeCenter (A : Adapter) (mol : Mol) (origMaps : List Int)
    (isomeric includeRadiusTag markRootFlag : Bool) (center layer : Nat) :
    Except String String × Mol :=
  let bondIndices := A.envBondIndices mol layer center
  let atomList := envAtomList mol center bondIndices
  let marked := if markRootFlag then markRoot mol origMaps.length center else mol
  let bondArg := if bondIndices.isEmpty then none else some bondIndices
  match A.fragmentToSmarts marked atomList bondArg isomeric with
  | Except.error e => (Except.error e, marked)
  | Except.ok smarts =>
    let restored := if markRootFlag then restoreAtomMaps marked origMaps else marked
    (Except.ok (mkToken includeRadiusTag layer smarts), restored)

/-- The ordered mapping `center -> (layer -> token)` (`PerCenter`). -/
abbrev PerCenter := List (Nat × List (Nat × String))

/-- Insertion into the inner `std::map<unsigned, std::string>` of
`PerCenter`. -/
def layerInsert (layer : Nat) (tok : String) :
    List (Nat × String) → List (Nat × String)
  | [] => [(layer, tok)]
  | (k, s) :: rest =>
    if layer < k then (layer, tok) :: (k, s) :: rest
    else if layer = k then (k, tok) :: rest
    else (k, s) :: layerInsert layer tok rest

/-- Assignment `perCenter[center][layer] = token` on the sorted association lists. -/
def pcInsert (center layer : Nat) (tok : String) : PerCenter → PerCenter
  | [] => [(center, [(layer, tok)])]
  | (c, m) :: rest =>
    if center < c then (center, [(layer, tok)]) :: (c, m) :: rest
    else if center = c then (c, layerInsert layer tok m) :: rest
    else (c, m) :: pcInsert center layer tok rest

/-- The main loop of `ecfp_env_tokens_by_center` over the collected pairs,
threading the working molecule; a serialisation exception propagates. -/
def envLoop (A : Adapter) (origMaps : List Int)
    (isomeric includeRadiusTag markRootFlag : Bool) :
    List (Nat × Nat) → Mol → PerCenter → Except String (Mol × PerCenter)
  | [], mol, pc => Except.ok (mol, pc)
  | p :: rest, mol, pc =>
    match serializeCenter A mol origMaps isomeric includeRadiusTag markRootFlag p.1 p.2 with
    | (Except.error e, _) => Except.error e
    | (Except.ok tok, mol2) =>
      envLoop A origMaps isomeric includeRadiusTag markRootFlag rest mol2
        (pcInsert p.1 p.2 tok pc)

/-- Function `ecfp_env_tokens_by_center` from `ecfp_trace.cpp`: kekulise the working
copy (swallowing the two kekulisation exception kinds), collect the unique
`(center, layer)` pairs with `layer <= radius` from the Morgan bit info,
snapshot the map numbers, and serialise every environment. -/
def ecfp_env_tokens_by_center (A : Adapter) (source : Mol) (radius : Nat)
    (isomeric kekulize includeRadiusTag markRootFlag : Bool) :
    Except String PerCenter :=
  let mol :=
    if kekulize then
      match A.kekulizeMol source with
      | some k => k
      | none => source
    else source
  let bitInfo := collect_morgan_bitinfo A mol radius isomeric
  let pairs := collectPairs bitInfo radius
  let origMaps := getMapNums mol
  match envLoop A origMaps isomeric includeRadiusTag markRootFlag pairs mol [] with
  | Except.error e => Except.error e
  | Except.ok (_, pc) => Except.ok pc

/-- Function `compute_morgan_fingerprint_bits` from `ecfp_trace.cpp`, with the length
as a parameter: a zeroed vector that is filled from the toolkit's bit vector;
a toolkit exception or null bit vector leaves it zeroed. -/
def compute_morgan_fingerprint_bits (A : Adapter) (mol : Mol) (radius : Nat)
    (includeChirality : Bool) (nbits : Nat) : List Nat :=
  match A.fingerprintAsBitVect mol radius nbits includeChirality with
  | Except.error _ => List.replicate nbits 0
  | Except.ok none => List.replicate nbits 0
  | Except.ok (some fp) =>
    (List.range nbits).map (fun idx => if fp.getD idx false then 1 else 0)

/-- The ordered mapping `layer -> (token -> count)` (`ByRadius`). -/
abbrev ByRadius := List (Nat × List (String × Nat))

/-- Increment `by_radius[layer][token] += 1` on the inner token map: the
default-inserting `operator[]` of `std::map<std::string, unsigned>` followed
by the increment.  Keys are compared as character lists, matching the
byte-wise `std::less<std::string>`. -/
def incrToken (tok : String) : List (String × Nat) → List (String × Nat)
  | [] => [(tok, 1)]
  | (t, c) :: rest =>
    if tok.data < t.data then (tok, 1) :: (t, c) :: rest
    else if tok = t then (t, c + 1) :: rest
    else (t, c) :: incrToken tok rest

/-- Increment `by_radius[layer][token] += 1` on the outer layer map. -/
def brIncr (layer : Nat) (tok : String) : ByRadius → ByRadius
  | [] => [(layer, incrToken tok [])]
  | (k, m) :: rest =>
    if layer < k then (layer, incrToken tok []) :: (k, m) :: rest
    else if layer = k then (k, incrToken tok m) :: rest
    else (k, m) :: brIncr layer tok rest

/-- The `(layer, token)` entries of a `PerCenter` mapping in iteration order
(outer loop over centers, inner loop over layers). -/
def flattenEnvs (pc : PerCenter) : List (Nat × String) :=
  pc.flatMap (fun ce => ce.2.map (fun le => (le.1, le.2)))

/-- The aggregation loop of the facade: for every center entry and layer
entry, `by_radius[layer][token] += 1`. -/
def buildByRadius (pc : PerCenter) : ByRadius :=
  (flattenEnvs pc).foldl (fun br e => brIncr e.1 e.2 br) []

/-- The token-count map stored at a layer (empty when the layer is absent). -/
def lookupBR (br : ByRadius) (layer : Nat) : List (String × Nat) :=
  match br.find? (fun e => e.1 == layer) with
  | some e => e.2
  | none => []

/-- Sum of the counts of a token-count list. -/
def sumCounts (m : List (String × Nat)) : Nat :=
  (m.map Prod.snd).sum

/-- Number of `(center, layer)` environments a `PerCenter` mapping holds at
one layer. -/
def envCount (pc : PerCenter) (layer : Nat) : Nat :=
  ((flattenEnvs pc).filter (fun e => e.1 == layer)).length

/-- The UTF-8 count separator U+00D7 (`kCountSeparator`). -/
def kCountSeparator : String := "×"

/-- The UTF-8 chain arrow with spaces (`kChainArrow`). -/
def kChainArrow : String := " → "

/-- One per-radius summary line: sort the `(token, count)` pairs of the layer
by complexity key, render each as `token×count`, join with `", "`, and prefix
`r{layer}: `. -/
def renderRadiusLine (M : String → Option Mol) (e : Nat × List (String × Nat)) :
    String :=
  let tokens := sortTokens M e.2
  let pieces := tokens.map (fun tc => tc.1 ++ kCountSeparator ++ toString tc.2)
  "r" ++ toString e.1 ++ ": " ++ String.intercalate (", ") pieces

/-- Fallback atom for the total modelling of `getAtomWithIdx`; the centers
stored in `PerCenter` are valid atom indices of the molecule. -/
def defaultAtom : Atom :=
  { atomicNum := 0, symbol := "", mapNum := 0 }

/-- Sort of a center's `(layer, token)` chain by ascending layer (the
`std::sort` on the chain vector). -/
def insertLayerPair (x : Nat × String) : List (Nat × String) → List (Nat × String)
  | [] => [x]
  | y :: ys => if y.1 < x.1 then y :: insertLayerPair x ys else x :: y :: ys

/-- The chain sort used for each per-center line. -/
def sortByLayer (l : List (Nat × String)) : List (Nat × String) :=
  l.foldr insertLayerPair []

/-- One per-center chain line: `SYMBOL{atom_idx}: tok0 → tok1 → ...`. -/
def renderCenterLine (mol : Mol) (ce : Nat × List (Nat × String)) : String :=
  let chain := sortByLayer ce.2
  let tokens := chain.map Prod.snd
  (mol.atoms.getD ce.1 defaultAtom).symbol ++ toString ce.1 ++ ": " ++
    String.intercalate kChainArrow tokens

/-- Modelled from the spec: the façade `ecfp_reasoning_trace_from_smiles`
with the `fp_nbits` parameter of spec section 4.6.  The repository calls a
six-argument variant of the façade (from `tf_string_op.cpp` and
`molecular_ops.cpp`) whose definition is missing from the sources; the
five-parameter definition present in `ecfp_trace.cpp` is this function with
`fp_nbits` fixed to the constant `kECFPReasoningFingerprintSize`
(see `ecfp_reasoning_trace_from_smiles_src` below).  Everything except the
generalised length is translated from the body in `ecfp_trace.cpp`: parse the
SMILES softly, enumerate environments with the radius tag and root marking
on, compute the fingerprint with the same chirality flag, aggregate tokens by
radius, and render the summary and per-center lines joined by newlines.  A
toolkit exception inside the enumerator propagates as `Except.error`. -/
def ecfp_reasoning_trace_from_smiles (A : Adapter) (smiles : String)
    (radius : Nat) (isomeric kekulize includePerCenter : Bool) (nbits : Nat) :
    Except String (String × List Nat) :=
  let fingerprint0 := List.replicate nbits 0
  match A.smilesToMol smiles with
  | none => Except.ok ("", fingerprint0)
  | some mol =>
    match ecfp_env_tokens_by_center A mol radius isomeric kekulize true true with
    | Except.error e => Except.error e
    | Except.ok perCenter =>
      let fingerprint := compute_morgan_fingerprint_bits A mol radius isomeric nbits
      let byRadius := buildByRadius perCenter
      let summaryLines := byRadius.map (renderRadiusLine A.smartsToMol)
      let centerLines :=
        if includePerCenter && !perCenter.isEmpty then
          "" :: "# per-center chains" :: perCenter.map (renderCenterLine mol)
        else []
      Except.ok (String.intercalate ("\n") (summaryLines ++ centerLines), fingerprint)

/-- Constant `kECFPReasoningFingerprintSize` from `ecfp_trace.hpp`. -/
def kECFPReasoningFingerprintSize : Nat := 2048

/-- The five-parameter façade exactly as defined in `ecfp_trace.cpp`: the
fingerprint length is the fixed constant. -/
def ecfp_reasoning_trace_from_smiles_src (A : Adapter) (smiles : String)
    (radius : Nat) (isomeric kekulize includePerCenter : Bool) :
    Except String (String × List Nat) :=
  ecfp_reasoning_trace_from_smiles A smiles radius isomeric kekulize
    includePerCenter kECFPReasoningFingerprintSize

/-- Model of `std::vector::resize(n, 0)`: truncate or zero-pad to length `n`. -/
def listResize (l : List Nat) (n : Nat) : List Nat :=
  l.take n ++ List.replicate (n - l.length) 0

/-- The per-element body of `StringProcessOp::Compute` from
`tf_string_op.cpp`: call the façade at radius 2, isomeric, non-kekulised,
with per-center chains, catching façade exceptions into an `[error]` trace
with a zero fingerprint; resize a wrong-length fingerprint; and substitute
`[invalid]` for an empty trace of a non-empty input.  `trace.empty()` is the
emptiness of the character list. -/
def stringProcessElement (A : Adapter) (fingerprintSize : Nat) (smiles : String) :
    String × List Nat :=
  let traceResult :=
    match ecfp_reasoning_trace_from_smiles A smiles 2 true false true fingerprintSize with
    | Except.ok r => r
    | Except.error msg => ("[error] " ++ msg, List.replicate fingerprintSize 0)
  let fingerprint :=
    if traceResult.2.length ≠ fingerprintSize then listResize traceResult.2 fingerprintSize
    else traceResult.2
  let outTrace :=
    if traceResult.1.data.isEmpty then
      if smiles.data.isEmpty then ("") else ("[invalid]")
    else traceResult.1
  (outTrace, fingerprint)

/-- The whole kernel loop of `StringProcessOp::Compute` over the flattened
input tensor: per-element traces and the concatenated fingerprint rows. -/
def stringProcessCompute (A : Adapter) (fingerprintSize : Nat)
    (inputs : List String) : List String × List Nat :=
  let outs := inputs.map (stringProcessElement A fingerprintSize)
  (outs.map Prod.fst, (outs.map Prod.snd).flatten)

/-- A C++ `double` that is either the quiet-NaN failure sentinel or a finite
descriptor value; the RDKit descriptor calculators return finite values, kept
abstract in `α`. -/
inductive DVal (α : Type)
  | nan : DVal α
  | num : α → DVal α
deriving DecidableEq

/-- Function `calculate_molecular_weights` from `molecular_ops.cpp`: per SMILES, the
descriptor of the parsed molecule, or NaN when parsing fails. -/
def calculate_molecular_weights {α : Type} (parse : String → Option Mol)
    (calcAMW : Mol → α) (smilesList : List String) : List (DVal α) :=
  smilesList.map (fun s =>
    match parse s with
    | some mol => DVal.num (calcAMW mol)
    | none => DVal.nan)

/-- Function `calculate_logp` from `molecular_ops.cpp`. -/
def calculate_logp {α : Type} (parse : String → Option Mol)
    (calcClogP : Mol → α) (smilesList : List String) : List (DVal α) :=
  smilesList.map (fun s =>
    match parse s with
    | some mol => DVal.num (calcClogP mol)
    | none => DVal.nan)

/-- Function `calculate_tpsa` from `molecular_ops.cpp`. -/
def calculate_tpsa {α : Type} (parse : String → Option Mol)
    (calcTPSA : Mol → α) (smilesList : List String) : List (DVal α) :=
  smilesList.map (fun s =>
    match parse s with
    | some mol => DVal.num (calcTPSA mol)
    | none => DVal.nan)

/-- Function `validate_smiles` from `molecular_ops.cpp`: true exactly when the SMILES
parses. -/
def validate_smiles (parse : String → Option Mol) (smilesList : List String) :
    List Bool :=
  smilesList.map (fun s => (parse s).isSome)

/-- A one-carbon molecule used as a concrete test fixture. -/
def molW : Mol :=
  { atoms := [{ atomicNum := 6, symbol := "C", mapNum := 0 }],
    bonds := [], numRings := 0 }

/-- A two-atom molecule carrying nonzero atom-map numbers `[5, 7]`. -/
def molC4 : Mol :=
  { atoms := [{ atomicNum := 6, symbol := "C", mapNum := 5 },
              { atomicNum := 8, symbol := "O", mapNum := 7 }],
    bonds := [], numRings := 0 }

/-- A concrete toolkit whose SMILES parser rejects every input. -/
def baseAdapter : Adapter :=
  { smilesToMol := fun _ => none
    kekulizeMol := fun m => some m
    morganBitInfo := fun _ _ _ => []
    envBondIndices := fun _ _ _ => []
    fragmentToSmarts := fun _ _ _ _ => Except.ok ("")
    smartsToMol := fun _ => none
    fingerprintAsBitVect := fun _ _ _ _ => Except.ok none }

/-- A concrete toolkit that parses everything to `molW` and reports Morgan
occurrences at layers 0, 1 and 3. -/
def adapterEnum : Adapter :=
  { baseAdapter with
    smilesToMol := fun _ => some molW
    morganBitInfo := fun _ _ _ => [(7, [(0, 0), (0, 1), (1, 3)])]
    fragmentToSmarts := fun _ _ _ _ => Except.ok ("[CH4]") }

/-- Adapter `adapterEnum` with a failing fingerprint-as-bit-vector call. -/
def adapterFpFail : Adapter :=
  { adapterEnum with fingerprintAsBitVect := fun _ _ _ _ => Except.error ("fpfail") }

/-- Adapter `adapterEnum` with a throwing SMARTS serialiser. -/
def adapterBoom : Adapter :=
  { adapterEnum with fragmentToSmarts := fun _ _ _ _ => Except.error ("boom") }

/-- A toolkit whose chirality-aware capabilities fail when called with the
chirality flag off. -/
def adapterChiA : Adapter :=
  { smilesToMol := fun _ => some molW
    kekulizeMol := fun m => some m
    morganBitInfo := fun _ _ chi =>
      match chi with
      | true => [(7, [(0, 0)])]
      | false => []
    envBondIndices := fun _ _ _ => []
    fragmentToSmarts := fun _ _ _ chi =>
      match chi with
      | true => Except.ok ("[CH4]")
      | false => Except.error ("achiral")
    smartsToMol := fun _ => none
    fingerprintAsBitVect := fun _ _ _ chi =>
      match chi with
      | true => Except.ok none
      | false => Except.error ("achiral") }

/-- A toolkit agreeing with `adapterChiA` exactly on chirality-on calls. -/
def adapterChiB : Adapter :=
  { smilesToMol := fun _ => some molW
    kekulizeMol := fun m => some m
    morganBitInfo := fun _ _ _ => [(7, [(0, 0)])]
    envBondIndices := fun _ _ _ => []
    fragmentToSmarts := fun _ _ _ _ => Except.ok ("[CH4]")
    smartsToMol := fun _ => none
    fingerprintAsBitVect := fun _ _ _ _ => Except.ok none }

/-- The `PerCenter` mapping `adapterEnum` produces at radius 2. -/
def pcEnumW : PerCenter :=
  [(0, [(0, "r0:[CH4]"), (1, "r1:[CH4]")])]

/-- A concrete SMILES parser accepting exactly the string `CC`. -/
def parseW : String → Option Mol :=
  fun s => if s = "CC" then some molW else none

theorem compute_morgan_fingerprint_bits_length (A : Adapter) (mol : Mol)
    (radius : Nat) (chi : Bool) (nbits : Nat) :
    (compute_morgan_fingerprint_bits A mol radius chi nbits).length = nbits := by
  unfold compute_morgan_fingerprint_bits
  cases A.fingerprintAsBitVect mol radius nbits chi with
  | error e => simp
  | ok o =>
    cases o with
    | none => simp
    | some fp => simp

/-- C1: when the SMILES fails to parse, the façade returns the pair of the
empty string and an all-zero fingerprint, raising no error. -/
theorem ecfp_trace_soft_failure (A : Adapter) (smiles : String) (radius : Nat)
    (isomeric kekulize includePerCenter : Bool) (nbits : Nat)
    (h : A.smilesToMol smiles = none) :
    ecfp_reasoning_trace_from_smiles A smiles radius isomeric kekulize
        includePerCenter nbits = Except.ok ("", List.replicate nbits 0) ∧
      ∀ x ∈ List.replicate nbits (0 : Nat), x = 0 := by
  constructor
  · simp only [ecfp_reasoning_trace_from_smiles, h]
  · intro x hx
    exact List.eq_of_mem_replicate hx

theorem ecfp_trace_soft_failure_witness :
    ecfp_reasoning_trace_from_smiles baseAdapter ("not_a_molecule") 2 true false
        true 2048 = Except.ok ("", List.replicate 2048 0) ∧
      ∀ x ∈ List.replicate 2048 (0 : Nat), x = 0 :=
  ecfp_trace_soft_failure baseAdapter ("not_a_molecule") 2 true false true 2048 rfl

/-- C5: whenever the façade returns, the fingerprint has length exactly
`fp_nbits`, the `fp_nbits` default being the constant 2048 — also on the
parse-failure and fingerprint-failure paths. -/
theorem facade_fingerprint_length (A : Adapter) (smiles : String) (radius : Nat)
    (isomeric kekulize includePerCenter : Bool) (nbits : Nat) (text : String)
    (fp : List Nat)
    (h : ecfp_reasoning_trace_from_smiles A smiles radius isomeric kekulize
        includePerCenter nbits = Except.ok (text, fp)) :
    fp.length = nbits ∧ kECFPReasoningFingerprintSize = 2048 := by
  refine ⟨?_, rfl⟩
  cases hp : A.smilesToMol smiles with
  | none =>
    simp only [ecfp_reasoning_trace_from_smiles, hp, Except.ok.injEq,
      Prod.mk.injEq] at h
    rw [← h.2]
    simp
  | some mol =>
    cases he : ecfp_env_tokens_by_center A mol radius isomeric kekulize true true with
    | error e =>
      simp only [ecfp_reasoning_trace_from_smiles, hp, he] at h
      exact Except.noConfusion h
    | ok pc =>
      simp only [ecfp_reasoning_trace_from_smiles, hp, he, Except.ok.injEq,
        Prod.mk.injEq] at h
      rw [← h.2]
      exact compute_morgan_fingerprint_bits_length A mol radius isomeric nbits

theorem facade_fingerprint_length_witness :
    (List.replicate 512 (0 : Nat)).length = 512 ∧
      kECFPReasoningFingerprintSize = 2048 :=
  facade_fingerprint_length adapterFpFail ("CCO") 2 true false true 512
    ("r0: r0:[CH4]×1\nr1: r1:[CH4]×1\n\n# per-center chains\nC0: r0:[CH4] → r1:[CH4]")
    (List.replicate 512 0) rfl

theorem foldl_inv {β : Type _} {σ : Type _} (f : σ → β → σ) (inv : σ → Prop) :
    ∀ (l : List β) (init : σ),
      (∀ acc x, x ∈ l → inv acc → inv (f acc x)) → inv init →
      inv (l.foldl f init) := by
  intro l
  induction l with
  | nil => intro init _ h0; exact h0
  | cons x xs ih =>
    intro init hstep h0
    simp only [List.foldl_cons]
    exact ih (f init x)
      (fun acc y hy hacc => hstep acc y (List.mem_cons_of_mem _ hy) hacc)
      (hstep init x (List.mem_cons_self _ _) h0)

theorem mem_insertPair (p : Nat × Nat) :
    ∀ (l : List (Nat × Nat)) (q : Nat × Nat), q ∈ insertPair p l → q = p ∨ q ∈ l := by
  intro l
  induction l with
  | nil =>
    intro q h
    simp only [insertPair, List.mem_singleton] at h
    exact Or.inl h
  | cons r rs ih =>
    intro q h
    simp only [insertPair] at h
    split at h
    · rcases List.mem_cons.mp h with h1 | h2
      · exact Or.inl h1
      · exact Or.inr h2
    · split at h
      · exact Or.inr h
      · rcases List.mem_cons.mp h with h1 | h2
        · exact Or.inr (h1 ▸ List.mem_cons_self _ _)
        · rcases ih q h2 with h3 | h3
          · exact Or.inl h3
          · exact Or.inr (List.mem_cons_of_mem _ h3)

theorem collectPairs_layer_le (bitInfo : List (Nat × List (Nat × Nat)))
    (radius : Nat) : ∀ p ∈ collectPairs bitInfo radius, p.2 ≤ radius := by
  unfold collectPairs
  refine foldl_inv _ (fun acc : List (Nat × Nat) => ∀ p ∈ acc, p.2 ≤ radius) bitInfo [] ?_ ?_
  · intro acc entry _ hacc
    refine foldl_inv _ (fun acc2 : List (Nat × Nat) => ∀ p ∈ acc2, p.2 ≤ radius) entry.2 acc ?_ ?_
    · intro acc2 occurrence _ hacc2 p hp
      split at hp
      · rcases mem_insertPair _ _ _ hp with h1 | h2
        · rw [h1]
          assumption
        · exact hacc2 p h2
      · exact hacc2 p hp
    · exact hacc
  · intro p hp
    exact absurd hp (List.not_mem_nil p)

theorem layerInsert_mem (layer : Nat) (tok : String) :
    ∀ (m : List (Nat × String)) (le : Nat × String),
      le ∈ layerInsert layer tok m → le.1 = layer ∨ le ∈ m := by
  intro m
  induction m with
  | nil =>
    intro le h
    simp only [layerInsert, List.mem_singleton] at h
    exact Or.inl (by rw [h])
  | cons ks rest ih =>
    intro le h
    simp only [layerInsert] at h
    split at h
    · rcases List.mem_cons.mp h with h1 | h2
      · exact Or.inl (by rw [h1])
      · exact Or.inr h2
    · split at h
      · rename_i heq
        rcases List.mem_cons.mp h with h1 | h2
        · exact Or.inl (by rw [h1]; exact heq.symm)
        · exact Or.inr (List.mem_cons_of_mem _ h2)
      · rcases List.mem_cons.mp h with h1 | h2
        · exact Or.inr (h1 ▸ List.mem_cons_self _ _)
        · rcases ih le h2 with h3 | h3
          · exact Or.inl h3
          · exact Or.inr (List.mem_cons_of_mem _ h3)

theorem pcInsert_layers_le (radius center layer : Nat) (tok : String)
    (hl : layer ≤ radius) :
    ∀ (pc : PerCenter), (∀ ce ∈ pc, ∀ le ∈ ce.2, le.1 ≤ radius) →
      ∀ ce ∈ pcInsert center layer tok pc, ∀ le ∈ ce.2, le.1 ≤ radius := by
  intro pc
  induction pc with
  | nil =>
    intro _ ce hce le hle
    simp only [pcInsert, List.mem_singleton] at hce
    rw [hce] at hle
    simp only [List.mem_singleton] at hle
    rw [hle]
    exact hl
  | cons cm rest ih =>
    intro hpc ce hce le hle
    simp only [pcInsert] at hce
    split at hce
    · rcases List.mem_cons.mp hce with h1 | h2
      · rw [h1] at hle
        simp only [List.mem_singleton] at hle
        rw [hle]
        exact hl
      · exact hpc ce h2 le hle
    · split at hce
      · rcases List.mem_cons.mp hce with h1 | h2
        · rw [h1] at hle
          rcases layerInsert_mem layer tok cm.2 le hle with h3 | h3
          · rw [h3]; exact hl
          · exact hpc cm (List.mem_cons_self _ _) le h3
        · exact hpc ce (List.mem_cons_of_mem _ h2) le hle
      · rcases List.mem_cons.mp hce with h1 | h2
        · exact hpc ce (h1 ▸ List.mem_cons_self _ _) le hle
        · exact ih (fun ce0 hce0 => hpc ce0 (List.mem_cons_of_mem _ hce0)) ce h2 le hle

theorem envLoop_layers_le (A : Adapter) (orig : List Int) (iso irt mr : Bool)
    (radius : Nat) :
    ∀ (pairs : List (Nat × Nat)) (mol : Mol) (pc : PerCenter)
      (res : Mol × PerCenter),
      (∀ p ∈ pairs, p.2 ≤ radius) → (∀ ce ∈ pc, ∀ le ∈ ce.2, le.1 ≤ radius) →
      envLoop A orig iso irt mr pairs mol pc = Except.ok res →
      ∀ ce ∈ res.2, ∀ le ∈ ce.2, le.1 ≤ radius := by
  intro pairs
  induction pairs with
  | nil =>
    intro mol pc res _ hpc h
    simp only [envLoop, Except.ok.injEq] at h
    rw [← h]
    exact hpc
  | cons p rest ih =>
    intro mol pc res hpairs hpc h
    simp only [envLoop] at h
    split at h
    · exact Except.noConfusion h
    · rename_i tok mol2 heq
      exact ih mol2 (pcInsert p.1 p.2 tok pc) res
        (fun q hq => hpairs q (List.mem_cons_of_mem _ hq))
        (pcInsert_layers_le radius p.1 p.2 tok
          (hpairs p (List.mem_cons_self _ _)) pc hpc)
        h

theorem flattenEnvs_layer_le (pc : PerCenter) (radius : Nat)
    (h : ∀ ce ∈ pc, ∀ le ∈ ce.2, le.1 ≤ radius) :
    ∀ x ∈ flattenEnvs pc, x.1 ≤ radius := by
  intro x hx
  simp only [flattenEnvs, List.mem_flatMap, List.mem_map] at hx
  obtain ⟨ce, hce, le, hle, hxe⟩ := hx
  rw [← hxe]
  exact h ce hce le hle

theorem brIncr_mem_keys (layer : Nat) (tok : String) :
    ∀ (br : ByRadius) (e : Nat × List (String × Nat)),
      e ∈ brIncr layer tok br → e.1 = layer ∨ ∃ e0 ∈ br, e.1 = e0.1 := by
  intro br
  induction br with
  | nil =>
    intro e h
    simp only [brIncr, List.mem_singleton] at h
    exact Or.inl (by rw [h])
  | cons km rest ih =>
    intro e h
    simp only [brIncr] at h
    split at h
    · rcases List.mem_cons.mp h with h1 | h2
      · exact Or.inl (by rw [h1])
      · exact Or.inr ⟨e, h2, rfl⟩
    · split at h
      · rename_i heq
        rcases List.mem_cons.mp h with h1 | h2
        · exact Or.inl (by rw [h1]; exact heq.symm)
        · exact Or.inr ⟨e, List.mem_cons_of_mem _ h2, rfl⟩
      · rcases List.mem_cons.mp h with h1 | h2
        · exact Or.inr ⟨e, h1 ▸ List.mem_cons_self _ _, rfl⟩
        · rcases ih e h2 with h3 | ⟨e0, he0, h4⟩
          · exact Or.inl h3
          · exact Or.inr ⟨e0, List.mem_cons_of_mem _ he0, h4⟩

theorem buildByRadius_keys_le (radius : Nat) (pc : PerCenter)
    (h : ∀ ce ∈ pc, ∀ le ∈ ce.2, le.1 ≤ radius) :
    ∀ e ∈ buildByRadius pc, e.1 ≤ radius := by
  unfold buildByRadius
  refine foldl_inv _ (fun br : ByRadius => ∀ e ∈ br, e.1 ≤ radius) (flattenEnvs pc) [] ?_ ?_
  · intro br x hx hbr e he
    rcases brIncr_mem_keys x.1 x.2 br e he with h1 | ⟨e0, he0, h2⟩
    · rw [h1]
      exact flattenEnvs_layer_le pc radius h x hx
    · rw [h2]
      exact hbr e0 he0
  · intro e he
    exact absurd he (List.not_mem_nil e)

/-- C2: every `(center, layer)` environment the enumerator produces has
`layer <= radius`, hence the `PerCenter` mapping has no deeper entry and the
per-radius aggregation (whose keys are the rendered `r{l}:` line indices)
holds no layer above the radius. -/
theorem enumerator_radius_discipline (A : Adapter) (source : Mol) (radius : Nat)
    (isomeric kekulize irt mr : Bool) (pc : PerCenter)
    (h : ecfp_env_tokens_by_center A source radius isomeric kekulize irt mr =
      Except.ok pc) :
    (∀ ce ∈ pc, ∀ le ∈ ce.2, le.1 ≤ radius) ∧
      ∀ e ∈ buildByRadius pc, e.1 ≤ radius := by
  have hmain : ∀ ce ∈ pc, ∀ le ∈ ce.2, le.1 ≤ radius := by
    simp only [ecfp_env_tokens_by_center] at h
    split at h
    · exact Except.noConfusion h
    · rename_i mol2 pc2 heq
      simp only [Except.ok.injEq] at h
      rw [← h]
      exact envLoop_layers_le A _ isomeric irt mr radius _ _ [] (mol2, pc2)
        (collectPairs_layer_le _ radius)
        (fun ce hce => absurd hce (List.not_mem_nil ce))
        heq
  exact ⟨hmain, buildByRadius_keys_le radius pc hmain⟩

theorem enumerator_radius_discipline_witness :
    (∀ ce ∈ pcEnumW, ∀ le ∈ ce.2, le.1 ≤ 2) ∧
      ∀ e ∈ buildByRadius pcEnumW, e.1 ≤ 2 :=
  enumerator_radius_discipline adapterEnum molW 2 true false true true pcEnumW rfl

theorem lex_le_same {α β : Type _} [LinearOrder α] [LinearOrder β] (x : α)
    (u v : β) : toLex (x, u) ≤ toLex (x, v) ↔ u ≤ v := by
  rw [Prod.Lex.le_iff]
  simp [lt_irrefl]

theorem token_metrics_token (M : String → Option Mol) (t : String) :
    (token_metrics M t).token = t := by
  unfold token_metrics compute_metrics
  split <;> rfl

theorem string_data_inj (a b : String) (h : a.data = b.data) : a = b :=
  String.ext h

theorem complexity_key_inj (M : String → Option Mol) (a b : String)
    (h : complexity_key M a = complexity_key M b) : a = b := by
  simp only [complexity_key] at h
  have e1 := congrArg ofLex h
  have e2 := congrArg ofLex (congrArg Prod.snd e1)
  have e3 := congrArg ofLex (congrArg Prod.snd e2)
  have e4 := congrArg ofLex (congrArg Prod.snd e3)
  have e5 := congrArg ofLex (congrArg Prod.snd e4)
  have e6 := congrArg ofLex (congrArg Prod.snd e5)
  have e7 := congrArg Prod.snd e6
  rw [token_metrics_token M a, token_metrics_token M b] at e7
  exact string_data_inj a b e7

theorem insertByKey_mem (M : String → Option Mol) (x : String × Nat) :
    ∀ (l : List (String × Nat)) (z : String × Nat),
      z ∈ insertByKey M x l → z = x ∨ z ∈ l := by
  intro l
  induction l with
  | nil =>
    intro z h
    simp only [insertByKey, List.mem_singleton] at h
    exact Or.inl h
  | cons y ys ih =>
    intro z h
    simp only [insertByKey] at h
    split at h
    · rcases List.mem_cons.mp h with h1 | h2
      · exact Or.inr (h1 ▸ List.mem_cons_self _ _)
      · rcases ih z h2 with h3 | h3
        · exact Or.inl h3
        · exact Or.inr (List.mem_cons_of_mem _ h3)
    · rcases List.mem_cons.mp h with h1 | h2
      · exact Or.inl h1
      · exact Or.inr h2

theorem insertByKey_pairwise (M : String → Option Mol) (x : String × Nat) :
    ∀ l : List (String × Nat),
      List.Pairwise (fun p q => complexity_key M p.1 ≤ complexity_key M q.1) l →
      List.Pairwise (fun p q => complexity_key M p.1 ≤ complexity_key M q.1)
        (insertByKey M x l) := by
  intro l
  induction l with
  | nil =>
    intro _
    simp [insertByKey]
  | cons y ys ih =>
    intro hp
    rcases List.pairwise_cons.mp hp with ⟨hy, hys⟩
    simp only [insertByKey]
    split
    · rename_i hlt
      refine List.pairwise_cons.mpr ⟨?_, ih hys⟩
      intro z hz
      rcases insertByKey_mem M x ys z hz with h1 | h2
      · rw [h1]
        exact le_of_lt hlt
      · exact hy z h2
    · rename_i hnlt
      refine List.pairwise_cons.mpr ⟨?_, hp⟩
      intro z hz
      rcases List.mem_cons.mp hz with h1 | h2
      · rw [h1]
        exact not_lt.mp hnlt
      · exact le_trans (not_lt.mp hnlt) (hy z h2)

theorem sortTokens_pairwise (M : String → Option Mol) (l : List (String × Nat)) :
    List.Pairwise (fun p q => complexity_key M p.1 ≤ complexity_key M q.1)
      (sortTokens M l) := by
  induction l with
  | nil => simp [sortTokens]
  | cons a l ih =>
    simp only [sortTokens, List.foldr_cons]
    exact insertByKey_pairwise M a _ ih

theorem insertByKey_perm (M : String → Option Mol) (x : String × Nat) :
    ∀ l : List (String × Nat), (insertByKey M x l).Perm (x :: l) := by
  intro l
  induction l with
  | nil => simp [insertByKey]
  | cons y ys ih =>
    simp only [insertByKey]
    split
    · exact (ih.cons y).trans (List.Perm.swap x y ys)
    · exact List.Perm.refl _

theorem sortTokens_perm (M : String → Option Mol) (l : List (String × Nat)) :
    (sortTokens M l).Perm l := by
  induction l with
  | nil => simp [sortTokens]
  | cons a l ih =>
    simp only [sortTokens, List.foldr_cons]
    exact (insertByKey_perm M a _).trans (ih.cons a)

/-- C3: the `(token, count)` entries of every per-radius line are sorted in
ascending complexity-key order; the sorted list is a permutation of the
layer's aggregated entries; the key cannot collide on distinct tokens (the
full token string is its last component), so the order is total and
deterministic; and on tokens with equal structural metrics the key order is
exactly the token-string order. -/
theorem summary_tokens_sorted (M : String → Option Mol)
    (l : List (String × Nat)) :
    List.Pairwise (fun p q => complexity_key M p.1 ≤ complexity_key M q.1)
        (sortTokens M l) ∧
      (sortTokens M l).Perm l ∧
      (∀ a b : String, complexity_key M a = complexity_key M b → a = b) ∧
      ∀ a b : String,
        (token_metrics M a).radius = (token_metrics M b).radius →
        (token_metrics M a).numAtoms = (token_metrics M b).numAtoms →
        (token_metrics M a).numBonds = (token_metrics M b).numBonds →
        (token_metrics M a).hasRing = (token_metrics M b).hasRing →
        (token_metrics M a).numHetero = (token_metrics M b).numHetero →
        (token_metrics M a).hasUnsat = (token_metrics M b).hasUnsat →
        (complexity_key M a ≤ complexity_key M b ↔ a.data ≤ b.data) := by
  refine ⟨sortTokens_pairwise M l, sortTokens_perm M l, complexity_key_inj M, ?_⟩
  intro a b h1 h2 h3 h4 h5 h6
  simp only [complexity_key]
  rw [h1, h2, h3, h4, h5, h6, token_metrics_token M a, token_metrics_token M b]
  rw [lex_le_same, lex_le_same, lex_le_same, lex_le_same, lex_le_same,
    lex_le_same]

theorem summary_tokens_sorted_witness :
    List.Pairwise
        (fun p q =>
          complexity_key (fun _ => none) p.1 ≤ complexity_key (fun _ => none) q.1)
        (sortTokens (fun _ => none) [("r1:C", 1), ("r0:C", 2)]) ∧
      (sortTokens (fun _ => none) [("r1:C", 1), ("r0:C", 2)]).Perm
        [("r1:C", 1), ("r0:C", 2)] ∧
      (∀ a b : String,
        complexity_key (fun _ => none) a = complexity_key (fun _ => none) b →
          a = b) ∧
      ∀ a b : String,
        (token_metrics (fun _ => none) a).radius =
            (token_metrics (fun _ => none) b).radius →
        (token_metrics (fun _ => none) a).numAtoms =
            (token_metrics (fun _ => none) b).numAtoms →
        (token_metrics (fun _ => none) a).numBonds =
            (token_metrics (fun _ => none) b).numBonds →
        (token_metrics (fun _ => none) a).hasRing =
            (token_metrics (fun _ => none) b).hasRing →
        (token_metrics (fun _ => none) a).numHetero =
            (token_metrics (fun _ => none) b).numHetero →
        (token_metrics (fun _ => none) a).hasUnsat =
            (token_metrics (fun _ => none) b).hasUnsat →
        (complexity_key (fun _ => none) a ≤ complexity_key (fun _ => none) b ↔
          a.data ≤ b.data) :=
  summary_tokens_sorted (fun _ => none) [("r1:C", 1), ("r0:C", 2)]

theorem setAtomMap_length : ∀ (atoms : List Atom) (i : Nat) (v : Int),
    (setAtomMap atoms i v).length = atoms.length := by
  intro atoms
  induction atoms with
  | nil => intro i v; rfl
  | cons a as ih =>
    intro i v
    cases i with
    | zero => rfl
    | succ n => simp [setAtomMap, ih]

theorem maps_setAtomMap_getD : ∀ (atoms : List Atom) (i : Nat) (v : Int)
    (j : Nat) (d : Int),
    ((setAtomMap atoms i v).map Atom.mapNum).getD j d =
      if i = j ∧ j < atoms.length then v
      else ((atoms.map Atom.mapNum).getD j d) := by
  intro atoms
  induction atoms with
  | nil =>
    intro i v j d
    simp [setAtomMap]
  | cons a as ih =>
    intro i v j d
    cases i with
    | zero =>
      cases j with
      | zero => simp [setAtomMap]
      | succ j => simp [setAtomMap]
    | succ i =>
      cases j with
      | zero => simp [setAtomMap]
      | succ j =>
        simp only [setAtomMap, List.map_cons, List.getD_cons_succ, ih,
          List.length_cons]
        by_cases hij : i = j
        · simp [hij, Nat.succ_lt_succ_iff]
        · simp [hij, fun h => hij (Nat.succ_injective h)]

theorem setMapsAll_succ (atoms : List Atom) (vals : Nat → Int) (n : Nat) :
    setMapsAll atoms vals (n + 1) =
      setAtomMap (setMapsAll atoms vals n) n (vals n) := by
  unfold setMapsAll
  rw [List.range_succ, List.foldl_append]
  rfl

theorem setMapsAll_length (atoms : List Atom) (vals : Nat → Int) :
    ∀ n : Nat, (setMapsAll atoms vals n).length = atoms.length := by
  intro n
  induction n with
  | zero => rfl
  | succ n ih => rw [setMapsAll_succ, setAtomMap_length, ih]

theorem maps_setMapsAll_getD (atoms : List Atom) (vals : Nat → Int) :
    ∀ (n j : Nat) (d : Int),
    ((setMapsAll atoms vals n).map Atom.mapNum).getD j d =
      if j < n ∧ j < atoms.length then vals j
      else ((atoms.map Atom.mapNum).getD j d) := by
  intro n
  induction n with
  | zero =>
    intro j d
    simp [setMapsAll]
  | succ n ih =>
    intro j d
    rw [setMapsAll_succ, maps_setAtomMap_getD, setMapsAll_length, ih]
    by_cases hnj : n = j
    · by_cases hlt : j < atoms.length
      · simp [hnj, hlt]
      · simp [hnj, hlt]
    · by_cases hjn : j < n
      · have : j < n + 1 := Nat.lt_succ_of_lt hjn
        simp [hnj, hjn, this]
      · have : ¬ j < n + 1 := by omega
        simp [hnj, hjn, this]

theorem getMapNums_restore (m : Mol) (orig : List Int)
    (h : orig.length = m.atoms.length) :
    getMapNums (restoreAtomMaps m orig) = orig := by
  unfold getMapNums restoreAtomMaps
  apply List.ext_getElem
  · simp [setMapsAll_length, h]
  · intro j h1 h2
    have hj : j < orig.length := h2
    have hlen : j < m.atoms.length := by rw [← h]; exact h2
    rw [← List.getD_eq_getElem _ 0 h1, ← List.getD_eq_getElem _ 0 h2,
      maps_setMapsAll_getD]
    simp [hj, hlen]

theorem markRoot_atoms_length (m : Mol) (snapLen center : Nat) :
    (markRoot m snapLen center).atoms.length = m.atoms.length := by
  unfold markRoot
  simp [setAtomMap_length, setMapsAll_length]

/-- C4 (amended): on the successful exit of a center's serialisation the
working molecule's atom-map-number vector is fully restored to its snapshot;
on the exception exit the source propagates the error without executing the
restoration loop (see the counterexample), leaving the root marking in place
on the function-local working copy. -/
theorem map_restoration_on_success (A : Adapter) (mol : Mol)
    (iso irt mr : Bool) (center layer : Nat) (tok : String) (mol2 : Mol)
    (h : serializeCenter A mol (getMapNums mol) iso irt mr center layer =
      (Except.ok tok, mol2)) :
    getMapNums mol2 = getMapNums mol := by
  simp only [serializeCenter] at h
  split at h
  · simp only [Prod.mk.injEq] at h
    exact Except.noConfusion h.1
  · rename_i smarts heq
    simp only [Prod.mk.injEq, Except.ok.injEq] at h
    rw [← h.2]
    cases mr with
    | false => simp
    | true =>
      simp only [if_true]
      apply getMapNums_restore
      rw [markRoot_atoms_length]
      simp [getMapNums]

theorem map_restoration_counterexample :
    (serializeCenter adapterBoom molC4 (getMapNums molC4) true true true 0 0).1 =
        Except.error ("boom") ∧
      getMapNums
          (serializeCenter adapterBoom molC4 (getMapNums molC4) true true true 0 0).2 =
        [1, 0] ∧
      getMapNums molC4 = [5, 7] ∧
      ([1, 0] : List Int) ≠ [5, 7] := by
  refine ⟨rfl, rfl, rfl, ?_⟩
  decide

theorem map_restoration_on_success_witness :
    getMapNums
        (serializeCenter adapterEnum molC4 (getMapNums molC4) true true true 0 0).2 =
      getMapNums molC4 :=
  map_restoration_on_success adapterEnum molC4 true true true 0 0 ("r0:[CH4]")
    ((serializeCenter adapterEnum molC4 (getMapNums molC4) true true true 0 0).2)
    rfl

theorem serializeCenter_congr (A B : Adapter) (iso : Bool)
    (henv : A.envBondIndices = B.envBondIndices)
    (hfrag : ∀ m al bl, A.fragmentToSmarts m al bl iso =
      B.fragmentToSmarts m al bl iso)
    (mol : Mol) (orig : List Int) (irt mr : Bool) (center layer : Nat) :
    serializeCenter A mol orig iso irt mr center layer =
      serializeCenter B mol orig iso irt mr center layer := by
  simp only [serializeCenter, henv, hfrag]

theorem envLoop_congr (A B : Adapter) (iso : Bool)
    (henv : A.envBondIndices = B.envBondIndices)
    (hfrag : ∀ m al bl, A.fragmentToSmarts m al bl iso =
      B.fragmentToSmarts m al bl iso)
    (orig : List Int) (irt mr : Bool) :
    ∀ (pairs : List (Nat × Nat)) (mol : Mol) (pc : PerCenter),
      envLoop A orig iso irt mr pairs mol pc =
        envLoop B orig iso irt mr pairs mol pc := by
  intro pairs
  induction pairs with
  | nil => intro mol pc; rfl
  | cons p rest ih =>
    intro mol pc
    simp only [envLoop, serializeCenter_congr A B iso henv hfrag]
    split
    · rfl
    · exact ih _ _

theorem enumerator_congr (A B : Adapter) (iso : Bool)
    (hkek : A.kekulizeMol = B.kekulizeMol)
    (hbit : ∀ m r, A.morganBitInfo m r iso = B.morganBitInfo m r iso)
    (henv : A.envBondIndices = B.envBondIndices)
    (hfrag : ∀ m al bl, A.fragmentToSmarts m al bl iso =
      B.fragmentToSmarts m al bl iso)
    (source : Mol) (radius : Nat) (kek irt mr : Bool) :
    ecfp_env_tokens_by_center A source radius iso kek irt mr =
      ecfp_env_tokens_by_center B source radius iso kek irt mr := by
  simp only [ecfp_env_tokens_by_center, collect_morgan_bitinfo, hkek, hbit,
    envLoop_congr A B iso henv hfrag]

theorem fingerprint_congr (A B : Adapter) (iso : Bool)
    (hfp : ∀ m r n, A.fingerprintAsBitVect m r n iso =
      B.fingerprintAsBitVect m r n iso)
    (mol : Mol) (radius nbits : Nat) :
    compute_morgan_fingerprint_bits A mol radius iso nbits =
      compute_morgan_fingerprint_bits B mol radius iso nbits := by
  simp only [compute_morgan_fingerprint_bits, hfp]

/-- C6: the façade's output depends on the toolkit's chirality-aware
capabilities (Morgan bit info, fragment SMARTS, fingerprint bit vector) only
through their values at the single flag `isomeric`: any two toolkits agreeing
at that flag value give identical traces and fingerprints.  Hence the trace
and the fingerprint derive their chirality handling from one flag value. -/
theorem facade_chirality_one_flag (A B : Adapter) (smiles : String)
    (radius : Nat) (iso kek ipc : Bool) (nbits : Nat)
    (hparse : A.smilesToMol = B.smilesToMol)
    (hkek : A.kekulizeMol = B.kekulizeMol)
    (henv : A.envBondIndices = B.envBondIndices)
    (hsm : A.smartsToMol = B.smartsToMol)
    (hbit : ∀ m r, A.morganBitInfo m r iso = B.morganBitInfo m r iso)
    (hfrag : ∀ m al bl, A.fragmentToSmarts m al bl iso =
      B.fragmentToSmarts m al bl iso)
    (hfp : ∀ m r n, A.fingerprintAsBitVect m r n iso =
      B.fingerprintAsBitVect m r n iso) :
    ecfp_reasoning_trace_from_smiles A smiles radius iso kek ipc nbits =
      ecfp_reasoning_trace_from_smiles B smiles radius iso kek ipc nbits := by
  simp only [ecfp_reasoning_trace_from_smiles, hparse, hsm,
    enumerator_congr A B iso hkek hbit henv hfrag,
    fingerprint_congr A B iso hfp]

theorem facade_chirality_one_flag_witness :
    ecfp_reasoning_trace_from_smiles adapterChiA ("C[C@H](N)O") 2 true false
        true 8 =
      ecfp_reasoning_trace_from_smiles adapterChiB ("C[C@H](N)O") 2 true false
        true 8 :=
  facade_chirality_one_flag adapterChiA adapterChiB ("C[C@H](N)O") 2 true false
    true 8 rfl rfl rfl rfl (fun _ _ => rfl) (fun _ _ _ => rfl)
    (fun _ _ _ => rfl)

theorem incrToken_sum (tok : String) :
    ∀ m : List (String × Nat), sumCounts (incrToken tok m) = sumCounts m + 1 := by
  intro m
  induction m with
  | nil => rfl
  | cons tc rest ih =>
    obtain ⟨t, c⟩ := tc
    simp only [incrToken]
    split
    · simp only [sumCounts, List.map_cons, List.sum_cons]
      omega
    · split
      · simp only [sumCounts, List.map_cons, List.sum_cons]
        omega
      · simp only [sumCounts, List.map_cons, List.sum_cons] at ih ⊢
        omega

theorem brIncr_sorted (layer : Nat) (tok : String) :
    ∀ br : ByRadius, List.Pairwise (fun a b => a.1 < b.1) br →
      List.Pairwise (fun a b => a.1 < b.1) (brIncr layer tok br) := by
  intro br
  induction br with
  | nil => intro _; simp [brIncr]
  | cons km rest ih =>
    intro hp
    obtain ⟨k, m⟩ := km
    rcases List.pairwise_cons.mp hp with ⟨hk, hrest⟩
    simp only [brIncr]
    split
    · rename_i hlt
      refine List.pairwise_cons.mpr ⟨?_, hp⟩
      intro z hz
      rcases List.mem_cons.mp hz with h1 | h2
      · rw [h1]
        exact hlt
      · exact lt_trans hlt (hk z h2)
    · split
      · refine List.pairwise_cons.mpr ⟨?_, hrest⟩
        intro z hz
        exact hk z hz
      · rename_i hnlt hne
        refine List.pairwise_cons.mpr ⟨?_, ih hrest⟩
        intro z hz
        rcases brIncr_mem_keys layer tok rest z hz with h1 | ⟨e0, he0, h2⟩
        · rw [h1]
          omega
        · rw [h2]
          exact hk e0 he0

theorem lookupBR_cons (k : Nat) (m : List (String × Nat)) (rest : ByRadius)
    (l : Nat) :
    lookupBR ((k, m) :: rest) l = if k = l then m else lookupBR rest l := by
  simp only [lookupBR, List.find?_cons]
  by_cases h : k = l
  · have hb : (k == l) = true := by simp [h]
    simp [hb, h]
  · have hb : (k == l) = false := by simp [h]
    simp [hb, h]

theorem lookupBR_eq_nil (l : Nat) :
    ∀ br : ByRadius, (∀ e ∈ br, l < e.1) → lookupBR br l = [] := by
  intro br
  induction br with
  | nil => intro _; rfl
  | cons km rest ih =>
    intro h
    obtain ⟨k, m⟩ := km
    rw [lookupBR_cons]
    have hlk : l < k := h (k, m) (List.mem_cons_self _ _)
    rw [if_neg (by omega)]
    exact ih (fun e he => h e (List.mem_cons_of_mem _ he))

theorem brIncr_sumAt (layer : Nat) (tok : String) (l : Nat) :
    ∀ br : ByRadius, List.Pairwise (fun a b => a.1 < b.1) br →
      sumCounts (lookupBR (brIncr layer tok br) l) =
        sumCounts (lookupBR br l) + (if layer = l then 1 else 0) := by
  intro br
  induction br with
  | nil =>
    intro _
    simp only [brIncr]
    rw [lookupBR_cons]
    by_cases h : layer = l
    · simp [h, incrToken, sumCounts, lookupBR]
    · simp [h, sumCounts, lookupBR]
  | cons km rest ih =>
    intro hp
    obtain ⟨k, m⟩ := km
    rcases List.pairwise_cons.mp hp with ⟨hk, hrest⟩
    simp only [brIncr]
    split
    · rename_i hlt
      rw [lookupBR_cons, lookupBR_cons]
      by_cases h : layer = l
      · rw [if_pos h]
        have hnil : lookupBR ((k, m) :: rest) l = [] := by
          apply lookupBR_eq_nil
          intro e he
          rcases List.mem_cons.mp he with h1 | h2
          · rw [h1]
            omega
          · have := hk e h2
            omega
        rw [lookupBR_cons] at hnil
        rw [hnil]
        simp [incrToken, sumCounts, h]
      · rw [if_neg (by omega : ¬ layer = l)]
        simp [h]
    · split
      · rename_i hnlt heq
        rw [lookupBR_cons, lookupBR_cons]
        by_cases h : k = l
        · rw [if_pos h, if_pos h, incrToken_sum]
          have : layer = l := heq.trans h
          simp [this]
        · rw [if_neg h, if_neg h]
          have : ¬ layer = l := by omega
          simp [this]
      · rename_i hnlt hne
        rw [lookupBR_cons, lookupBR_cons]
        by_cases h : k = l
        · rw [if_pos h, if_pos h]
          have : ¬ layer = l := by omega
          simp [this]
        · rw [if_neg h, if_neg h]
          exact ih hrest

theorem foldBR_sumAt (l : Nat) :
    ∀ (es : List (Nat × String)) (br : ByRadius),
      List.Pairwise (fun a b => a.1 < b.1) br →
      sumCounts (lookupBR (es.foldl (fun br0 e => brIncr e.1 e.2 br0) br) l) =
        sumCounts (lookupBR br l) +
          (es.filter (fun e => e.1 == l)).length := by
  intro es
  induction es with
  | nil =>
    intro br _
    simp
  | cons e rest ih =>
    intro br hp
    simp only [List.foldl_cons]
    rw [ih (brIncr e.1 e.2 br) (brIncr_sorted e.1 e.2 br hp),
      brIncr_sumAt e.1 e.2 l br hp, List.filter_cons]
    by_cases h : e.1 = l
    · have hb : (e.1 == l) = true := by simp [h]
      rw [if_pos h, if_pos hb, List.length_cons]
      omega
    · have hb : ¬ (e.1 == l) = true := by simp [h]
      rw [if_neg h, if_neg hb]
      omega

/-- C7: for every layer, the sum of the counts rendered on its summary line
(the sorted `(token, count)` pairs of the per-radius aggregation) equals the
number of `(center, layer)` environments the enumerator produced at that
layer. -/
theorem count_conservation (M : String → Option Mol) (pc : PerCenter)
    (l : Nat) :
    sumCounts (sortTokens M (lookupBR (buildByRadius pc) l)) = envCount pc l := by
  have hperm := sortTokens_perm M (lookupBR (buildByRadius pc) l)
  have hsum : sumCounts (sortTokens M (lookupBR (buildByRadius pc) l)) =
      sumCounts (lookupBR (buildByRadius pc) l) := by
    unfold sumCounts
    exact (hperm.map Prod.snd).sum_eq
  rw [hsum]
  unfold buildByRadius envCount
  rw [foldBR_sumAt l (flattenEnvs pc) [] (by simp)]
  simp [lookupBR, sumCounts]

theorem digit_not_space (c : Char) (h : c.isDigit = true) : isSpaceC c = false := by
  cases hsp : isSpaceC c
  · rfl
  · exfalso
    unfold isSpaceC at hsp
    rcases of_decide_eq_true hsp with h1 | h1 | h1 | h1 | h1 | h1 <;>
      (subst h1; exact absurd h (by decide))

theorem digit_ne_plus (c : Char) (h : c.isDigit = true) : ¬ c = '+' := by
  intro hc
  subst hc
  exact absurd h (by decide)

theorem digit_ne_minus (c : Char) (h : c.isDigit = true) : ¬ c = '-' := by
  intro hc
  subst hc
  exact absurd h (by decide)

theorem digit_ne_colon (c : Char) (h : c.isDigit = true) : ¬ c = ':' := by
  intro hc
  subst hc
  exact absurd h (by decide)

theorem takeWhile_all (p : Char → Bool) :
    ∀ l : List Char, (∀ c ∈ l, p c = true) → l.takeWhile p = l := by
  intro l
  induction l with
  | nil => intro _; rfl
  | cons c cs ih =>
    intro h
    rw [List.takeWhile_cons, if_pos (h c (List.mem_cons_self _ _)),
      ih (fun x hx => h x (List.mem_cons_of_mem _ hx))]

theorem findColon_digits (rest : List Char) :
    ∀ ds : List Char, (∀ c ∈ ds, c.isDigit = true) →
      findColon (ds ++ ':' :: rest) = some ds.length := by
  intro ds
  induction ds with
  | nil => intro _; simp [findColon]
  | cons c cs ih =>
    intro h
    have hc := h c (List.mem_cons_self _ _)
    simp only [List.cons_append, findColon]
    rw [if_neg (digit_ne_colon c hc)]
    have := ih (fun x hx => h x (List.mem_cons_of_mem _ hx))
    simp only [List.append_eq] at this ⊢
    rw [this]
    rfl

theorem findColon_no_colon (rest : List Char) :
    ∀ mid : List Char, (∀ c ∈ mid, ¬ c = ':') →
      findColon (mid ++ ':' :: rest) = some mid.length := by
  intro mid
  induction mid with
  | nil => intro _; simp [findColon]
  | cons c cs ih =>
    intro h
    simp only [List.cons_append, findColon]
    rw [if_neg (h c (List.mem_cons_self _ _))]
    have := ih (fun x hx => h x (List.mem_cons_of_mem _ hx))
    simp only [List.append_eq] at this ⊢
    rw [this]
    rfl

theorem stoul_digits (ds : List Char) (hne : ds ≠ [])
    (hdig : ∀ c ∈ ds, c.isDigit = true) :
    stoulModel ds = if 2 ^ 64 - 1 < digitsVal ds then none
      else some (digitsVal ds) := by
  obtain ⟨c, cs, rfl⟩ : ∃ c cs, ds = c :: cs := by
    cases ds with
    | nil => exact absurd rfl hne
    | cons c cs => exact ⟨c, cs, rfl⟩
  have hc := hdig c (List.mem_cons_self _ _)
  have hdw : List.dropWhile isSpaceC (c :: cs) = c :: cs := by
    rw [List.dropWhile_cons, digit_not_space c hc]
    simp
  have hpf : (some c = some '+') = False := by
    simp only [eq_iff_iff, iff_false]
    intro h1
    exact digit_ne_plus c hc (by injection h1)
  have hmf : (some c = some '-') = False := by
    simp only [eq_iff_iff, iff_false]
    intro h1
    exact digit_ne_minus c hc (by injection h1)
  have htw : List.takeWhile Char.isDigit (c :: cs) = c :: cs :=
    takeWhile_all _ _ hdig
  simp [stoulModel, hdw, hpf, hmf, htw]

theorem token_radius_truncation_counterexample :
    token_radius ("r4294967296:C") = 0 ∧
      "r4294967296:C".data = 'r' :: ("4294967296".data) ++ ':' :: ("C".data) ∧
      (∀ c ∈ ("4294967296".data), c.isDigit = true) ∧
      digitsVal ("4294967296".data) = 4294967296 ∧
      (0 : Nat) ≠ 4294967296 := by
  refine ⟨by decide, by decide, by decide, by decide, by decide⟩

/-- C8 (amended): radius extraction is total and never raises; a token
without a leading `'r'` or without any `':'` yields 0, and a token
`r{digits}:{rest}` yields the decimal value of the digits truncated by the
`unsigned int` cast, i.e. the value modulo `2 ^ 32`, with 0 when the value
exceeds the `unsigned long` range `2 ^ 64 - 1` (the caught
`std::out_of_range`).  In particular a decimal layer below `2 ^ 32` is
returned exactly.  A layer substring that fails to parse — empty (the
`pos <= 1` guard) or without leading decimal digits (the caught
`std::invalid_argument`) — yields 0. -/
theorem token_radius_total (t : String) (ds rest : List Char) :
    (t.data.head? ≠ some 'r' → token_radius t = 0) ∧
      (findColon t.data = none → token_radius t = 0) ∧
      (∀ u : String, u.data = 'r' :: ds ++ ':' :: rest → ds ≠ [] →
        (∀ c ∈ ds, c.isDigit = true) →
        token_radius u =
          if 2 ^ 64 - 1 < digitsVal ds then 0 else digitsVal ds % 2 ^ 32) ∧
      ∀ u : String, ∀ mid : List Char,
        u.data = 'r' :: mid ++ ':' :: rest → (∀ c ∈ mid, ¬ c = ':') →
        stoulModel mid = none → token_radius u = 0 := by
  refine ⟨?_, ?_, ?_, ?_⟩
  · intro h
    simp only [token_radius]
    by_cases h1 : t.data.length < 3
    · rw [if_pos h1]
    · rw [if_neg h1, if_pos h]
  · intro h
    simp only [token_radius, h]
    by_cases h1 : t.data.length < 3
    · rw [if_pos h1]
    · rw [if_neg h1]
      by_cases h2 : t.data.head? ≠ some 'r'
      · rw [if_pos h2]
      · rw [if_neg h2]
  · intro u hu hne hdig
    have hlen : ¬ u.data.length < 3 := by
      rw [hu]
      simp only [List.length_cons, List.length_append]
      cases ds with
      | nil => exact absurd rfl hne
      | cons c cs => simp; omega
    have hhead : ¬ u.data.head? ≠ some 'r' := by
      rw [hu]
      simp
    have hcolon : findColon u.data = some (ds.length + 1) := by
      rw [hu]
      simp only [findColon]
      rw [if_neg (by decide)]
      simp only [List.append_eq]
      rw [findColon_digits rest ds hdig]
      rfl
    have hpos : ¬ ds.length + 1 ≤ 1 := by
      cases ds with
      | nil => exact absurd rfl hne
      | cons c cs => simp
    have hsub : (u.data.drop 1).take (ds.length + 1 - 1) = ds := by
      rw [hu]
      simp only [List.drop_succ_cons, List.drop_zero, Nat.add_sub_cancel]
      exact List.take_left ds (':' :: rest)
    simp only [token_radius, hcolon, hlen, hhead, if_false, hpos]
    rw [hsub, stoul_digits ds hne hdig]
    by_cases hov : (18446744073709551615 : Nat) < digitsVal ds
    · rw [if_pos (by norm_num [hov]), if_pos (by norm_num [hov])]
    · rw [if_neg (by norm_num [hov]), if_neg (by norm_num [hov])]
  · intro u mid hu hnc hst
    by_cases hm : mid = []
    · rw [hm] at hu
      simp only [List.singleton_append] at hu
      have hcolon1 : findColon u.data = some 1 := by
        rw [hu]
        simp only [findColon]
        rw [if_neg (by decide)]
        simp
      by_cases hlen : u.data.length < 3
      · simp only [token_radius]
        rw [if_pos hlen]
      · have hhead : ¬ u.data.head? ≠ some 'r' := by
          rw [hu]
          simp
        simp only [token_radius, hcolon1]
        rw [if_neg hlen, if_neg hhead, if_pos (le_refl 1)]
    · have hlen : ¬ u.data.length < 3 := by
        rw [hu]
        simp only [List.length_cons, List.length_append]
        cases mid with
        | nil => exact absurd rfl hm
        | cons c cs => simp; omega
      have hhead : ¬ u.data.head? ≠ some 'r' := by
        rw [hu]
        simp
      have hcolon : findColon u.data = some (mid.length + 1) := by
        rw [hu]
        simp only [findColon]
        rw [if_neg (by decide)]
        simp only [List.append_eq]
        rw [findColon_no_colon rest mid hnc]
        rfl
      have hpos : ¬ mid.length + 1 ≤ 1 := by
        cases mid with
        | nil => exact absurd rfl hm
        | cons c cs => simp
      have hsub : (u.data.drop 1).take (mid.length + 1 - 1) = mid := by
        rw [hu]
        simp only [List.drop_succ_cons, List.drop_zero, Nat.add_sub_cancel]
        exact List.take_left mid (':' :: rest)
      simp only [token_radius, hcolon, hlen, hhead, if_false, hpos]
      rw [hsub, hst]

theorem token_radius_total_witness :
    token_radius ("r12:C") = 12 ∧ token_radius ("rab:C") = 0 := by
  constructor
  · have h := (token_radius_total ("r12:C") ['1', '2'] ['C']).2.2.1 ("r12:C")
      (by decide) (by decide) (by decide)
    rw [h]
    decide
  · exact (token_radius_total ("rab:C") ['1', '2'] ['C']).2.2.2 ("rab:C")
      ['a', 'b'] (by decide) (by decide) (by decide)

/-- C9: the per-element behaviour of the tensor operator: a façade exception
becomes the trace `[error] ` + message with an all-zero fingerprint of the
configured length, an empty façade trace for a non-empty input becomes the
literal `[invalid]` with the fingerprint as returned, and an empty input with
an empty façade trace is emitted verbatim as the empty string. -/
theorem string_process_element_cases (A : Adapter) (n : Nat) (s : String) :
    (∀ msg : String,
        ecfp_reasoning_trace_from_smiles A s 2 true false true n =
          Except.error msg →
        stringProcessElement A n s =
          ("[error] " ++ msg, List.replicate n 0)) ∧
      (∀ fp : List Nat,
        ecfp_reasoning_trace_from_smiles A s 2 true false true n =
          Except.ok ("", fp) →
        fp.length = n → ¬ s = "" →
        stringProcessElement A n s = ("[invalid]", fp)) ∧
      ∀ fp : List Nat,
        ecfp_reasoning_trace_from_smiles A s 2 true false true n =
          Except.ok ("", fp) →
        fp.length = n → s = "" →
        stringProcessElement A n s = ("", fp) := by
  refine ⟨?_, ?_, ?_⟩
  · intro msg h
    simp only [stringProcessElement, h]
    have hd : ("[error] " ++ msg).data = '[' :: ("error] ".data ++ msg.data) := by
      rw [String.data_append]
      rfl
    rw [hd]
    simp
  · intro fp h hlen hs
    have hs2 : s.data.isEmpty = false := by
      cases hd : s.data with
      | nil => exact absurd (string_data_inj s ("") (by rw [hd])) hs
      | cons c cs => simp
    simp [stringProcessElement, h, hs2, hlen]
  · intro fp h hlen hs
    subst hs
    simp [stringProcessElement, h, hlen]

theorem string_process_element_cases_witness :
    stringProcessElement adapterBoom 4 ("C") =
        ("[error] boom", List.replicate 4 0) ∧
      stringProcessElement baseAdapter 4 ("XX") =
        ("[invalid]", List.replicate 4 0) ∧
      stringProcessElement baseAdapter 4 ("") = ("", List.replicate 4 0) :=
  ⟨(string_process_element_cases adapterBoom 4 ("C")).1 ("boom") rfl,
    (string_process_element_cases baseAdapter 4 ("XX")).2.1
      (List.replicate 4 0) rfl (by simp) (by decide),
    (string_process_element_cases baseAdapter 4 ("")).2.2
      (List.replicate 4 0) rfl (by simp) rfl⟩

theorem descr_map_nan {α : Type} (parse : String → Option Mol) (f : Mol → α)
    (l : List String) (i : Nat) (hi : i < l.length) :
    (l.map (fun s =>
      match parse s with
      | some mol => DVal.num (f mol)
      | none => DVal.nan))[i]? = some (DVal.nan : DVal α) ↔
      (validate_smiles parse l)[i]? = some false := by
  obtain ⟨s, hs⟩ : ∃ s, l[i]? = some s := by
    cases hx : l[i]? with
    | none =>
      have := List.getElem?_eq_none_iff.mp hx
      omega
    | some s => exact ⟨s, rfl⟩
  simp only [validate_smiles, List.getElem?_map, hs, Option.map_some']
  cases hp : parse s with
  | some mol => simp [hp]
  | none => simp [hp]

/-- C10: each bulk descriptor operation returns one entry per input SMILES,
and the entry at an index is the NaN sentinel exactly when the SMILES at
that index fails to parse, i.e. exactly when `validate_smiles` reports false
there. -/
theorem descriptors_nan_iff_invalid {α : Type} (parse : String → Option Mol)
    (fAMW fLogP fTPSA : Mol → α) (l : List String) :
    ((calculate_molecular_weights parse fAMW l).length = l.length ∧
      (calculate_logp parse fLogP l).length = l.length ∧
      (calculate_tpsa parse fTPSA l).length = l.length ∧
      (validate_smiles parse l).length = l.length) ∧
      ∀ i : Nat, i < l.length →
        ((calculate_molecular_weights parse fAMW l)[i]? =
            some DVal.nan ↔ (validate_smiles parse l)[i]? = some false) ∧
          ((calculate_logp parse fLogP l)[i]? = some DVal.nan ↔
            (validate_smiles parse l)[i]? = some false) ∧
          ((calculate_tpsa parse fTPSA l)[i]? = some DVal.nan ↔
            (validate_smiles parse l)[i]? = some false) := by
  refine ⟨⟨by simp [calculate_molecular_weights], by simp [calculate_logp],
    by simp [calculate_tpsa], by simp [validate_smiles]⟩, ?_⟩
  intro i hi
  exact ⟨descr_map_nan parse fAMW l i hi, descr_map_nan parse fLogP l i hi,
    descr_map_nan parse fTPSA l i hi⟩

theorem descriptors_nan_iff_invalid_witness :
    ((calculate_molecular_weights parseW (fun _ => (0 : Int)) ["CC", "xx"])[1]? =
        some DVal.nan ↔
      (validate_smiles parseW ["CC", "xx"])[1]? = some false) ∧
      ((calculate_logp parseW (fun _ => (0 : Int)) ["CC", "xx"])[1]? =
          some DVal.nan ↔
        (validate_smiles parseW ["CC", "xx"])[1]? = some false) ∧
      ((calculate_tpsa parseW (fun _ => (0 : Int)) ["CC", "xx"])[1]? =
          some DVal.nan ↔
        (validate_smiles parseW ["CC", "xx"])[1]? = some false) :=
  (descriptors_nan_iff_invalid parseW (fun _ => (0 : Int)) (fun _ => (0 : Int))
    (fun _ => (0 : Int)) ["CC", "xx"]).2 1 (by decide)
